import Mathlib

/-!
# accesslog: a logging wrapper around an HTTP handler

A shallow embedding of `log.go` (package `accesslog`) and of the two tests of
`log_test.go`, followed by the properties established about them.

Conventions of the embedding.

* A Go string is the list of its bytes (naturals below 256), valid UTF-8 or
  not; `lit` gives the bytes of a string literal. Go `int` is `Int`; no
  arithmetic is performed on status codes, so no overflow is involved.
* The functions of the Go standard library that decide what a log line looks
  like (fmt.Sprintf for the verbs used, strconv.Quote, utf8.DecodeRuneInString)
  are embedded too; the Unicode tables of strconv.IsPrint are a parameter.
* An `http.ResponseWriter` is an explicit record of operations over a state type.
  Its methods are total functions of that state.
* A call of a Go func value that is nil is a run-time panic; it is modelled as
  the result `none`, so the methods of `loggingResponseWriter` return an `Option`.
* The closure returned by a `LogFunc` is a total transformer of the state of
  the log sink; it has no access to the response writer, which `WithCustomLog`
  never hands to it.
* Every step records an `Event` in a trace, in the order of the statements of
  the source, so that counts and orderings of calls can be stated.
-/

/-- A Go string: the sequence of its bytes, each a natural number below 256.
Nothing requires the bytes to be valid UTF-8. -/
abbrev GoString := List Nat

/-- A Go byte slice. -/
abbrev Bytes := List Nat

/-- A Go error value: nil, or an error with its message. -/
abbrev error := Option String

namespace utf8

/-- Constant utf8.RuneError. -/
def RuneError : Nat := 0xFFFD

/-- Constant utf8.RuneSelf. -/
def RuneSelf : Nat := 0x80

/-- The length of the encoding announced by a leading byte, from the table
`first` of package utf8: 0 for an ASCII byte and for a byte that cannot lead. -/
def size (s0 : Nat) : Nat :=
  if 0xC2 ≤ s0 ∧ s0 ≤ 0xDF then 2
  else if 0xE0 ≤ s0 ∧ s0 ≤ 0xEF then 3
  else if 0xF0 ≤ s0 ∧ s0 ≤ 0xF4 then 4
  else 0

/-- Lower end of the range accepted for the second byte (table acceptRanges). -/
def acceptLo (s0 : Nat) : Nat :=
  if s0 = 0xE0 then 0xA0 else if s0 = 0xF0 then 0x90 else 0x80

/-- Upper end of the range accepted for the second byte (table acceptRanges). -/
def acceptHi (s0 : Nat) : Nat :=
  if s0 = 0xED then 0x9F else if s0 = 0xF4 then 0x8F else 0xBF

/-- Function utf8.DecodeRuneInString: the first rune of `s` and the number of
bytes it takes; (RuneError, 0) for the empty string and (RuneError, 1) for an
encoding that is not valid. Masks and shifts are written as remainders and
products. -/
def DecodeRuneInString (s : GoString) : Nat × Nat :=
  match s with
  | [] => (RuneError, 0)
  | s0 :: t =>
    if s0 < 0x80 then (s0, 1)
    else if size s0 = 0 then (RuneError, 1)
    else
      match t with
      | [] => (RuneError, 1)
      | s1 :: t1 =>
        if s1 < acceptLo s0 ∨ acceptHi s0 < s1 then (RuneError, 1)
        else if size s0 ≤ 2 then (s0 % 32 * 64 + s1 % 64, 2)
        else
          match t1 with
          | [] => (RuneError, 1)
          | s2 :: t2 =>
            if s2 < 0x80 ∨ 0xBF < s2 then (RuneError, 1)
            else if size s0 ≤ 3 then (s0 % 16 * 4096 + s1 % 64 * 64 + s2 % 64, 3)
            else
              match t2 with
              | [] => (RuneError, 1)
              | s3 :: _ =>
                if s3 < 0x80 ∨ 0xBF < s3 then (RuneError, 1)
                else (s0 % 8 * 262144 + s1 % 64 * 4096 + s2 % 64 * 64 + s3 % 64, 4)

/-- Function utf8.ValidRune. -/
def ValidRune (r : Nat) : Bool :=
  r < 0xD800 || (0xDFFF < r && r ≤ 0x10FFFF)

/-- Function utf8.AppendRune, returning the bytes appended: the UTF-8 encoding
of the rune, and that of RuneError for a rune that is not valid. -/
def AppendRune (r : Nat) : GoString :=
  if r ≤ 0x7F then [r]
  else if r ≤ 0x7FF then [0xC0 + r / 64, 0x80 + r % 64]
  else if r > 0x10FFFF ∨ (0xD800 ≤ r ∧ r ≤ 0xDFFF) then [0xEF, 0xBF, 0xBD]
  else if r ≤ 0xFFFF then [0xE0 + r / 4096, 0x80 + r / 64 % 64, 0x80 + r % 64]
  else [0xF0 + r / 262144, 0x80 + r / 4096 % 64, 0x80 + r / 64 % 64, 0x80 + r % 64]

end utf8

/-- The bytes of a string literal of the source: the UTF-8 encoding of its characters. -/
def lit (s : String) : GoString :=
  (s.toList.map (fun c => utf8.AppendRune c.toNat)).flatten

namespace http

/-- The type http.Header, a map from header names to their values, kept as an
association list in which a name occurs at most once. -/
abbrev Header := List (GoString × List GoString)

/-- Function validHeaderFieldByte of net/textproto: the bytes allowed in a
header name, which are the letters, the digits and the marks
`!#$%&'*+-.^_|~` and the grave accent. -/
def validHeaderFieldByte (c : Nat) : Bool :=
  (48 ≤ c && c ≤ 57) || (65 ≤ c && c ≤ 90) || (97 ≤ c && c ≤ 122) ||
    [33, 35, 36, 37, 38, 39, 42, 43, 45, 46, 94, 95, 96, 124, 126].contains c

/-- The loop of canonicalMIMEHeaderKey: a letter at the start or after a
hyphen (45) is made upper case, any other letter lower case. -/
def canonicalLoop : Bool → GoString → GoString
  | _, [] => []
  | upper, c :: t =>
    let c1 := if upper ∧ 97 ≤ c ∧ c ≤ 122 then c - 32
      else if ¬upper ∧ 65 ≤ c ∧ c ≤ 90 then c + 32
      else c
    c1 :: canonicalLoop (c1 = 45) t

/-- Function textproto.CanonicalMIMEHeaderKey: a key holding a byte that is
not allowed in a header name is returned unchanged. -/
def CanonicalMIMEHeaderKey (s : GoString) : GoString :=
  if s.all validHeaderFieldByte then canonicalLoop true s else s

/-- Method Get of http.Header: first value stored under the canonical form of
the key, or the empty string. -/
def Header.Get (h : Header) (key : GoString) : GoString :=
  match h.lookup (CanonicalMIMEHeaderKey key) with
  | some (v :: _) => v
  | _ => []

/-- Method Set of http.Header: replaces whatever is stored under the canonical
form of the key by the single value. -/
def Header.Set (h : Header) (key value : GoString) : Header :=
  (CanonicalMIMEHeaderKey key, [value]) ::
    h.filter (fun e => e.1 != CanonicalMIMEHeaderKey key)

/-- Constant http.StatusOK. -/
def StatusOK : Int := 200

/-- Constant http.StatusNoContent. -/
def StatusNoContent : Int := 204

/-- The fields of http.Request read by this package: `URL` holds the text that
the String method of the request's URL gives, which is what the verb s prints. -/
structure Request where
  Method : GoString
  URL : GoString
  Header : Header
deriving DecidableEq

/-- Method UserAgent of http.Request: the User-Agent header of the request. -/
def Request.UserAgent (r : Request) : GoString := r.Header.Get (lit "User-Agent")

end http

namespace strconv

/-- The table lowerhex of package strconv: the digit for the value `n`, as a byte. -/
def lowerhex (n : Nat) : Nat := (lit "0123456789abcdef").getD (n % 16) 48

/-- Function strconv.IsPrint. Code points up to 0xFF are decided as in the Go
source; above that Go consults its Unicode tables, which are the parameter `tbl`. -/
def IsPrint (tbl : Nat → Bool) (r : Nat) : Bool :=
  if r ≤ 0xFF then
    if 0x20 ≤ r ∧ r ≤ 0x7E then true
    else if 0xA1 ≤ r ∧ r ≤ 0xFF then r != 0xAD
    else false
  else tbl r

/-- The hexadecimal digits of `n` taken at the given shifts, most significant first. -/
def hexAt (n : Nat) (shifts : List Nat) : GoString :=
  shifts.map (fun s => lowerhex ((n >>> s) % 16))

/-- Function strconv.appendEscapedRune with quote character the double quote
(byte 34), ASCIIonly false and graphicOnly false (the arguments strconv.Quote
passes), returning the bytes appended for one rune. Byte 92 is the backslash
and the bytes after it are the letters a, b, f, n, r, t, v, x, u and U. A rune
that is not valid is written as RuneError, with the escape of four digits. -/
def escapedRune (tbl : Nat → Bool) (r : Nat) : GoString :=
  if r = 34 ∨ r = 92 then [92, r]
  else if IsPrint tbl r then utf8.AppendRune r
  else if r = 7 then [92, 97]
  else if r = 8 then [92, 98]
  else if r = 12 then [92, 102]
  else if r = 10 then [92, 110]
  else if r = 13 then [92, 114]
  else if r = 9 then [92, 116]
  else if r = 11 then [92, 118]
  else if r < 0x20 ∨ r = 0x7f then
    92 :: 120 :: hexAt r [4, 0]
  else if !utf8.ValidRune r ∨ r < 0x10000 then
    92 :: 117 :: hexAt (if utf8.ValidRune r then r else utf8.RuneError) [12, 8, 4, 0]
  else
    92 :: 85 :: hexAt r [28, 24, 20, 16, 12, 8, 4, 0]

/-- The rune at the head of the string `s0 :: t` and its width, as the loop
of strconv.appendQuotedWith takes them: a first byte below RuneSelf is a rune
by itself, otherwise the rune is decoded. -/
def firstRune (s0 : Nat) (t : GoString) : Nat × Nat :=
  if s0 ≥ utf8.RuneSelf then utf8.DecodeRuneInString (s0 :: t) else (s0, 1)

/-- What one round of the loop of strconv.appendQuotedWith appends for the
string `s0 :: t`: a byte that starts no valid encoding (width 1 and rune
RuneError) is written as backslash, x and its two hexadecimal digits; any
other rune goes through appendEscapedRune. -/
def quoteStep (tbl : Nat → Bool) (s0 : Nat) (t : GoString) : GoString :=
  if (firstRune s0 t).2 = 1 ∧ (firstRune s0 t).1 = utf8.RuneError then
    [92, 120, lowerhex (s0 / 16), lowerhex (s0 % 16)]
  else escapedRune tbl (firstRune s0 t).1

/-- The loop of strconv.appendQuotedWith, `for width := 0; len(s) > 0; s = s[width:]`:
`skip` counts the bytes of the current rune still to be stepped over. -/
def quoteLoop (tbl : Nat → Bool) : Nat → GoString → GoString
  | _, [] => []
  | skip + 1, _ :: t => quoteLoop tbl skip t
  | 0, s0 :: t => quoteStep tbl s0 t ++ quoteLoop tbl ((firstRune s0 t).2 - 1) t

/-- Function strconv.Quote: the Go double-quoted literal of `s`. -/
def Quote (tbl : Nat → Bool) (s : GoString) : GoString :=
  34 :: (quoteLoop tbl 0 s ++ [34])

/-- A rune that strconv.Quote copies as it is: printable, and neither the
double quote (34) nor the backslash (92). -/
def plainRune (tbl : Nat → Bool) (r : Nat) : Bool :=
  IsPrint tbl r && r != 34 && r != 92

/-- Whether the string is valid UTF-8 in which every character is printable
and is neither the double quote nor the backslash: every round of the loop
of strconv.appendQuotedWith finds a valid encoding of such a rune. `skip` is
as in `quoteLoop`. -/
def plainUTF8 (tbl : Nat → Bool) : Nat → GoString → Bool
  | _, [] => true
  | skip + 1, _ :: t => plainUTF8 tbl skip t
  | 0, s0 :: t =>
    !((firstRune s0 t).2 = 1 ∧ (firstRune s0 t).1 = utf8.RuneError) &&
      plainRune tbl (firstRune s0 t).1 && plainUTF8 tbl ((firstRune s0 t).2 - 1) t

end strconv

namespace fmt

/-- An operand of a formatted print: a string or an int. -/
inductive Arg where
  | str (s : GoString)
  | int (n : Int)
deriving DecidableEq

/-- One verb applied to one operand, for the verbs s, d and q on the operand
types they are meant for; `none` for any other combination. The verb s
prints the bytes of a string as they are; the verb d prints an int in
decimal, with a minus sign when negative; the verb q prints a string through
strconv.Quote. -/
def verb (tbl : Nat → Bool) (v : Nat) (a : Arg) : Option GoString :=
  match a with
  | Arg.str s =>
    if v = 115 then some s
    else if v = 113 then some (strconv.Quote tbl s)
    else none
  | Arg.int n =>
    if v = 100 then some (lit (toString n)) else none

/-- The scanning loop of fmt.Sprintf over the bytes of the format. -/
def doPrintf (tbl : Nat → Bool) : GoString → List Arg → Option GoString
  | [], [] => some []
  | [], _ :: _ => none
  | c :: rest, args =>
    if c = 37 then
      match rest, args with
      | v :: rest1, a :: args1 =>
        match verb tbl v a, doPrintf tbl rest1 args1 with
        | some s, some t => some (s ++ t)
        | _, _ => none
      | _, _ => none
    else
      match doPrintf tbl rest args with
      | some t => some (c :: t)
      | none => none

/-- Function fmt.Sprintf restricted to the verbs s, d and q; `none` outside that fragment. -/
def Sprintf (tbl : Nat → Bool) (format : GoString) (args : List Arg) : Option GoString :=
  doPrintf tbl format args

end fmt

namespace accesslog

/-- One observable step, recorded in the order the statements of the source run. -/
inductive Event where
  /-- the LogFunc is called with the request -/
  | fn (r : http.Request)
  /-- the callback held by the proxy is called with the code -/
  | log (code : Int)
  /-- the statement `rw.log = nil` runs -/
  | clear
  /-- method Header of the underlying writer is called -/
  | Header
  /-- method WriteHeader of the underlying writer is called -/
  | WriteHeader (code : Int)
  /-- method Write of the underlying writer is called -/
  | Write (b : Bytes)
deriving DecidableEq

/-- Everything outside the response writer: the state `out` of the log sink,
which callbacks act on, and the trace of events so far. -/
structure Env (L : Type) where
  out : L
  trace : List Event

/-- Appends one event to the trace. -/
def Env.emit {L : Type} (e : Env L) (ev : Event) : Env L :=
  { e with trace := e.trace ++ [ev] }

/-- The interface http.ResponseWriter, implemented over a state `σ`.
Go's Header returns the header map by reference: `Header` reads that map and
`storeHeader` is the effect of mutating it in place through the reference. -/
structure ResponseWriter (σ : Type) where
  Header : σ → http.Header
  storeHeader : σ → http.Header → σ
  WriteHeader : σ → Int → σ
  Write : σ → Bytes → (Int × error) × σ

/-- A call a handler makes on the response writer it is given. A Header call
carries the mutation the caller applies to the returned map (`id` for a read). -/
inductive Call where
  | Header (edit : http.Header → http.Header)
  | WriteHeader (code : Int)
  | Write (b : Bytes)

/-- What a call returns to the handler. -/
inductive Result where
  | Header (h : http.Header)
  | WriteHeader
  | Write (n : Int) (err : error)
deriving DecidableEq

/-- The event of the underlying writer receiving the call. -/
def Call.toEvent : Call → Event
  | Call.Header _ => Event.Header
  | Call.WriteHeader code => Event.WriteHeader code
  | Call.Write b => Event.Write b

/-- Whether the call is a WriteHeader or a Write. -/
def Call.isOutput : Call → Bool
  | Call.Header _ => false
  | _ => true

/-- The call made directly on a writer with interface `W`. -/
def ResponseWriter.call {σ : Type} (W : ResponseWriter σ) (c : Call) (w : σ) : Result × σ :=
  match c with
  | Call.Header edit => (Result.Header (W.Header w), W.storeHeader w (edit (W.Header w)))
  | Call.WriteHeader code => (Result.WriteHeader, W.WriteHeader w code)
  | Call.Write b => (Result.Write (W.Write w b).1.1 (W.Write w b).1.2, (W.Write w b).2)

/-- The type LogFunc: called with the request, it returns the callback
(possibly nil) and may act on the log sink's state while doing so. -/
abbrev LogFunc (L : Type) := http.Request → L → Option (Int → L → L) × L

/-- The interface Logger: its one method Printf, over the logger's state. -/
structure Logger (L : Type) where
  Printf : L → GoString → List fmt.Arg → L

/-- The struct loggingResponseWriter: the wrapped writer and the pending callback. -/
structure loggingResponseWriter (σ L : Type) where
  w : σ
  log : Option (Int → L → L)

/-- A call of the func value `f` with argument `code`; calling nil panics. -/
def callFunc {L : Type} (f : Option (Int → L → L)) (code : Int) (e : Env L) : Option (Env L) :=
  match f with
  | none => none
  | some g => some { out := g code e.out, trace := e.trace ++ [Event.log code] }

/-- The shared opening of WriteHeader and Write: `if rw.log != nil { rw.log(code); rw.log = nil }`. -/
def loggingResponseWriter.fire {σ L : Type} (rw : loggingResponseWriter σ L) (code : Int)
    (e : Env L) : Option (loggingResponseWriter σ L × Env L) :=
  if rw.log.isSome then
    match callFunc rw.log code e with
    | none => none
    | some e1 => some ({ rw with log := none }, e1.emit Event.clear)
  else some (rw, e)

/-- Method Header of loggingResponseWriter: `return rw.w.Header()`. The map
returned is the underlying writer's own, so what the caller then does to it
(`edit`) lands in the underlying writer. -/
def loggingResponseWriter.Header {σ L : Type} (W : ResponseWriter σ)
    (rw : loggingResponseWriter σ L) (edit : http.Header → http.Header) (e : Env L) :
    Option (http.Header × loggingResponseWriter σ L × Env L) :=
  some (W.Header rw.w, { rw with w := W.storeHeader rw.w (edit (W.Header rw.w)) },
    e.emit Event.Header)

/-- Method WriteHeader of loggingResponseWriter. -/
def loggingResponseWriter.WriteHeader {σ L : Type} (W : ResponseWriter σ)
    (rw : loggingResponseWriter σ L) (code : Int) (e : Env L) :
    Option (loggingResponseWriter σ L × Env L) :=
  match rw.fire code e with
  | none => none
  | some (rw1, e1) =>
    some ({ rw1 with w := W.WriteHeader rw1.w code }, e1.emit (Event.WriteHeader code))

/-- Method Write of loggingResponseWriter. -/
def loggingResponseWriter.Write {σ L : Type} (W : ResponseWriter σ)
    (rw : loggingResponseWriter σ L) (b : Bytes) (e : Env L) :
    Option ((Int × error) × loggingResponseWriter σ L × Env L) :=
  match rw.fire http.StatusOK e with
  | none => none
  | some (rw1, e1) =>
    some ((W.Write rw1.w b).1, { rw1 with w := (W.Write rw1.w b).2 }, e1.emit (Event.Write b))

/-- The call made on the proxy: dispatch to its three methods. -/
def loggingResponseWriter.call {σ L : Type} (W : ResponseWriter σ) (c : Call)
    (s : loggingResponseWriter σ L × Env L) : Option (Result × loggingResponseWriter σ L × Env L) :=
  match c with
  | Call.Header edit =>
    (loggingResponseWriter.Header W s.1 edit s.2).map (fun x => (Result.Header x.1, x.2))
  | Call.WriteHeader code =>
    (loggingResponseWriter.WriteHeader W s.1 code s.2).map (fun x => (Result.WriteHeader, x))
  | Call.Write b =>
    (loggingResponseWriter.Write W s.1 b s.2).map (fun x => (Result.Write x.1.1 x.1.2, x.2))

/-- The body of a handler as a program over the response writer it is given:
it returns, or makes a call and continues according to what the call returned. -/
inductive Prog where
  | ret
  | call (c : Call) (k : Result → Prog)

/-- An http.Handler: the program its ServeHTTP runs for a request. -/
abbrev Handler := http.Request → Prog

/-- Runs a program against a writer whose calls are given by `step` (`none`
is a panic), returning the calls made with their results and the final state. -/
def Prog.run {τ : Type} (step : Call → τ → Option (Result × τ)) :
    Prog → τ → Option (List (Call × Result) × τ)
  | Prog.ret, s => some ([], s)
  | Prog.call c k, s =>
    match step c s with
    | none => none
    | some (r, s1) =>
      match Prog.run step (k r) s1 with
      | none => none
      | some (tr, s2) => some ((c, r) :: tr, s2)

/-- The straight-line program making the given calls in order. -/
def Prog.ofCalls : List Call → Prog
  | [] => Prog.ret
  | c :: cs => Prog.call c (fun _ => Prog.ofCalls cs)

/-- A writer with interface `W` as a handler sees it; none of its calls panics. -/
def ResponseWriter.step {σ : Type} (W : ResponseWriter σ) (c : Call) (w : σ) : Option (Result × σ) :=
  some (W.call c w)

/-- Method ServeHTTP of a handler, run against a writer given by `step`. -/
def Handler.ServeHTTP {τ : Type} (h : Handler) (step : Call → τ → Option (Result × τ))
    (w : τ) (r : http.Request) : Option (List (Call × Result) × τ) :=
  Prog.run step (h r) w

/-- The argument `&loggingResponseWriter{w: w, log: fn(r)}` of the call in
WithCustomLog: `fn(r)` is called, and the proxy is built around the writer
`w` and the callback it returned. -/
def newProxy {σ L : Type} (fn : LogFunc L) (w : σ) (r : http.Request) (e : Env L) :
    loggingResponseWriter σ L × Env L :=
  let e1 := e.emit (Event.fn r)
  let cb := fn r e1.out
  ({ w := w, log := cb.1 }, { e1 with out := cb.2 })

/-- Function WithCustomLog: the returned handler, applied to the writer `w`
(with interface `W`) and the request `r`. The argument of ServeHTTP is
evaluated first, which calls `fn(r)` and builds the proxy; then
`h.ServeHTTP` runs against the proxy. The result is what the calls of `h`
returned, the final state of `w` and the final environment. -/
def WithCustomLog {σ L : Type} (h : Handler) (fn : LogFunc L) (W : ResponseWriter σ)
    (w : σ) (r : http.Request) (e : Env L) : Option (List (Call × Result) × σ × Env L) :=
  (h.ServeHTTP (loggingResponseWriter.call W) (newProxy fn w r e) r).map
    (fun x => (x.1, x.2.1.w, x.2.2))

/-- The LogFunc built by WithLog: it captures `r` and the logger. -/
def withLogFunc {L : Type} (l : Logger L) : LogFunc L :=
  fun r out =>
    (some (fun code o => l.Printf o (lit "%s %s %d %q")
      [fmt.Arg.str r.Method, fmt.Arg.str r.URL, fmt.Arg.int code, fmt.Arg.str r.UserAgent]), out)

/-- Function WithLog. -/
def WithLog {σ L : Type} (h : Handler) (l : Logger L) (W : ResponseWriter σ)
    (w : σ) (r : http.Request) (e : Env L) : Option (List (Call × Result) × σ × Env L) :=
  WithCustomLog h (withLogFunc l) W w r e

/-! ## Response sinks and the fixtures of the tests

The two sinks below follow the Go standard library (net/http/httptest and
net/http). Their WriteHeader panics on a code outside 100..999; since the
methods of a `ResponseWriter` are total here, such a call sets the flag
`panicked` and records nothing, and the sink ignores every later WriteHeader
and Write: in Go the handler is gone at that point. -/

/-- Function bodyAllowedForStatus of net/http. -/
def bodyAllowedForStatus (status : Int) : Bool :=
  !((100 ≤ status ∧ status ≤ 199) ∨ status = 204 ∨ status = 304)

/-- The error http.ErrBodyNotAllowed. -/
def ErrBodyNotAllowed : error :=
  some "http: request method or response status code does not allow body"

/-- The recorder httptest.ResponseRecorder, used by the tests as the response
sink: its exported fields Code, HeaderMap and Body, and the flag wroteHeader.
The snapshot of the headers it keeps for its method Result is left out. -/
structure ResponseRecorder where
  Code : Int
  HeaderMap : http.Header
  Body : Bytes
  wroteHeader : Bool
  panicked : Bool
deriving DecidableEq

/-- Function httptest.NewRecorder. -/
def NewRecorder : ResponseRecorder :=
  { Code := 200, HeaderMap := [], Body := [], wroteHeader := false, panicked := false }

/-- Method WriteHeader of the recorder: ignored once a status is written,
a panic for a code outside 100..999, otherwise the code is recorded. -/
def ResponseRecorder.WriteHeader (rw : ResponseRecorder) (code : Int) : ResponseRecorder :=
  if rw.panicked ∨ rw.wroteHeader then rw
  else if code < 100 ∨ code > 999 then { rw with panicked := true }
  else { rw with Code := code, wroteHeader := true }

/-- Method writeHeader of the recorder, called by Write: when no status is
written yet and the headers have neither Content-Type nor Transfer-Encoding,
Content-Type is set to what http.DetectContentType finds in the bytes (the
parameter `detect`); then the status 200 is written. -/
def ResponseRecorder.writeHeader (detect : Bytes → GoString) (rw : ResponseRecorder)
    (b : Bytes) : ResponseRecorder :=
  if rw.panicked ∨ rw.wroteHeader then rw
  else
    let hasType := (rw.HeaderMap.lookup (lit "Content-Type")).isSome
    let hasTE := rw.HeaderMap.Get (lit "Transfer-Encoding") != []
    let rw1 := if !hasType && !hasTE then
        { rw with HeaderMap := rw.HeaderMap.Set (lit "Content-Type") (detect b) }
      else rw
    rw1.WriteHeader 200

/-- Method Write of the recorder: the bytes are appended to Body, and the
result is their number, or ErrBodyNotAllowed under a status that has no body. -/
def ResponseRecorder.Write (detect : Bytes → GoString) (rw : ResponseRecorder) (b : Bytes) :
    (Int × error) × ResponseRecorder :=
  if rw.panicked then ((0, none), rw)
  else
    let rw1 := rw.writeHeader detect b
    let rw2 := { rw1 with Body := rw1.Body ++ b }
    if bodyAllowedForStatus rw2.Code then ((b.length, none), rw2)
    else ((0, ErrBodyNotAllowed), rw2)

/-- The recorder as a response writer. -/
def recorder (detect : Bytes → GoString) : ResponseWriter ResponseRecorder where
  Header := fun rw => rw.HeaderMap
  storeHeader := fun rw h => { rw with HeaderMap := h }
  WriteHeader := ResponseRecorder.WriteHeader
  Write := ResponseRecorder.Write detect

/-- The response writer a net/http server hands to a handler, as far as the
status and the body go: `status` is 0 until a final status is written, and
`informational` lists the 1xx responses sent before it. Hijacking, the
Content-Length accounting, HEAD requests and errors of the connection are
left out. -/
structure serverResponse where
  status : Int
  wroteHeader : Bool
  informational : List Int
  handlerHeader : http.Header
  body : Bytes
  panicked : Bool
deriving DecidableEq

/-- The response writer at the start of a request. -/
def newServerResponse : serverResponse :=
  { status := 0, wroteHeader := false, informational := [], handlerHeader := [], body := [],
    panicked := false }

/-- Method WriteHeader of the server's response writer: ignored once a final
status is written, a panic for a code outside 100..999; a code from 100 to
199 other than 101 is sent as an informational response and leaves the
status open; any other code becomes the status of the response. -/
def serverResponse.WriteHeader (w : serverResponse) (code : Int) : serverResponse :=
  if w.panicked ∨ w.wroteHeader then w
  else if code < 100 ∨ code > 999 then { w with panicked := true }
  else if 100 ≤ code ∧ code ≤ 199 ∧ code ≠ 101 then
    { w with informational := w.informational ++ [code] }
  else { w with wroteHeader := true, status := code }

/-- Method Write of the server's response writer: the status 200 is written
when none is; an empty write returns 0; under a status that has no body the
result is ErrBodyNotAllowed; otherwise the bytes are sent. -/
def serverResponse.Write (w : serverResponse) (b : Bytes) : (Int × error) × serverResponse :=
  if w.panicked then ((0, none), w)
  else
    let w1 := w.WriteHeader 200
    if b.length = 0 then ((0, none), w1)
    else if !bodyAllowedForStatus w1.status then ((0, ErrBodyNotAllowed), w1)
    else ((b.length, none), { w1 with body := w1.body ++ b })

/-- The server's response writer as a response writer. -/
def server : ResponseWriter serverResponse where
  Header := fun w => w.handlerHeader
  storeHeader := fun w h => { w with handlerHeader := h }
  WriteHeader := serverResponse.WriteHeader
  Write := serverResponse.Write

/-- The logger `log.New(b, "", 0)` of the tests, its state being the buffer
`b`: Printf renders the line with Sprintf and appends it, adding a newline
(byte 10) when the line does not end in one. -/
def bufLogger (tbl : Nat → Bool) : Logger GoString where
  Printf := fun buf format args =>
    match fmt.Sprintf tbl format args with
    | none => buf
    | some s => if s.getLast? = some 10 then buf ++ s else buf ++ s ++ [10]

/-- The request of the tests. -/
def testRequest : http.Request :=
  { Method := lit "GET", URL := lit "/index.html?foo=bar",
    Header := http.Header.Set [] (lit "User-Agent") (lit "user agent/0.1") }

/-- The handler of TestWithLog: `w.WriteHeader(http.StatusNoContent)`. -/
def testHandler : Handler :=
  fun _ => Prog.call (Call.WriteHeader http.StatusNoContent) (fun _ => Prog.ret)

/-- The handler of TestWithLog_implicitCode: it sets Content-Type and writes "ok\n". -/
def testHandlerImplicit : Handler :=
  fun _ => Prog.call (Call.Header (fun h => h.Set (lit "Content-Type") (lit "text/plain")))
    (fun _ => Prog.call (Call.Write (lit "ok\n")) (fun _ => Prog.ret))

/-- A handler that sends 103 Early Hints and then the status 200. -/
def earlyHintsHandler : Handler :=
  fun _ => Prog.call (Call.WriteHeader 103) (fun _ =>
    Prog.call (Call.WriteHeader 200) (fun _ => Prog.ret))

/-- A LogFunc that returns one and the same callback for every request: the
callback puts the code in front of the list of codes logged so far. -/
def sharedLogFunc : LogFunc (List Int) :=
  fun _ out => (some (fun code o => code :: o), out)

/-- The codes the callback was called with, in order. -/
def callbackCodes : List Event → List Int
  | [] => []
  | Event.log code :: evs => code :: callbackCodes evs
  | _ :: evs => callbackCodes evs

/-- The calls that reached the underlying writer, in order. -/
def underlyingCalls : List Event → List Event
  | [] => []
  | Event.Header :: evs => Event.Header :: underlyingCalls evs
  | Event.WriteHeader code :: evs => Event.WriteHeader code :: underlyingCalls evs
  | Event.Write b :: evs => Event.Write b :: underlyingCalls evs
  | _ :: evs => underlyingCalls evs

/-- The calls of the LogFunc, in order. -/
def fnCalls : List Event → List http.Request
  | [] => []
  | Event.fn r :: evs => r :: fnCalls evs
  | _ :: evs => fnCalls evs

/-- The program run directly on a writer with interface `W`: the calls made
with their results, and the final state of the writer. -/
def ResponseWriter.exec {σ : Type} (W : ResponseWriter σ) : Prog → σ → List (Call × Result) × σ
  | Prog.ret, w => ([], w)
  | Prog.call c k, w =>
    ((c, (W.call c w).1) :: (ResponseWriter.exec W (k (W.call c w).1) (W.call c w).2).1,
      (ResponseWriter.exec W (k (W.call c w).1) (W.call c w).2).2)

/-- The code handed to the callback by the first WriteHeader or Write of a
sequence of calls, if there is one. -/
def firstCode : List Call → Option Int
  | [] => none
  | Call.Header _ :: cs => firstCode cs
  | Call.WriteHeader code :: _ => some code
  | Call.Write _ :: _ => some 200

/-- The events of a sequence of calls made on a proxy whose callback is pending. -/
def pendingTrace : List Call → List Event
  | [] => []
  | Call.Header _ :: cs => Event.Header :: pendingTrace cs
  | Call.WriteHeader code :: cs =>
    Event.log code :: Event.clear :: Event.WriteHeader code :: cs.map Call.toEvent
  | Call.Write b :: cs =>
    Event.log 200 :: Event.clear :: Event.Write b :: cs.map Call.toEvent

/-- A program whose first call other than Header is WriteHeader with the code `C`. -/
inductive Prog.StartsWithWriteHeader (C : Int) : Prog → Prop where
  | here (k : Result → Prog) : Prog.StartsWithWriteHeader C (Prog.call (Call.WriteHeader C) k)
  | later (edit : http.Header → http.Header) (k : Result → Prog) :
    (∀ res, Prog.StartsWithWriteHeader C (k res)) →
      Prog.StartsWithWriteHeader C (Prog.call (Call.Header edit) k)

/-! ## Lists of events -/

theorem callbackCodes_append (xs ys : List Event) :
    callbackCodes (xs ++ ys) = callbackCodes xs ++ callbackCodes ys := by
  induction xs with
  | nil => rfl
  | cons x xs ih => cases x <;> simp [callbackCodes, ih]

theorem underlyingCalls_append (xs ys : List Event) :
    underlyingCalls (xs ++ ys) = underlyingCalls xs ++ underlyingCalls ys := by
  induction xs with
  | nil => rfl
  | cons x xs ih => cases x <;> simp [underlyingCalls, ih]

theorem fnCalls_append (xs ys : List Event) :
    fnCalls (xs ++ ys) = fnCalls xs ++ fnCalls ys := by
  induction xs with
  | nil => rfl
  | cons x xs ih => cases x <;> simp [fnCalls, ih]

theorem callbackCodes_toEvent (cs : List Call) : callbackCodes (cs.map Call.toEvent) = [] := by
  induction cs with
  | nil => rfl
  | cons c cs ih => cases c <;> simp [callbackCodes, Call.toEvent, ih]

theorem underlyingCalls_toEvent (cs : List Call) :
    underlyingCalls (cs.map Call.toEvent) = cs.map Call.toEvent := by
  induction cs with
  | nil => rfl
  | cons c cs ih => cases c <;> simp [underlyingCalls, Call.toEvent, ih]

theorem fnCalls_toEvent (cs : List Call) : fnCalls (cs.map Call.toEvent) = [] := by
  induction cs with
  | nil => rfl
  | cons c cs ih => cases c <;> simp [fnCalls, Call.toEvent, ih]

theorem callbackCodes_pendingTrace (cs : List Call) :
    callbackCodes (pendingTrace cs) = (firstCode cs).toList := by
  induction cs with
  | nil => rfl
  | cons c cs ih =>
    cases c <;> simp [callbackCodes, pendingTrace, firstCode, ih, callbackCodes_toEvent]

theorem underlyingCalls_pendingTrace (cs : List Call) :
    underlyingCalls (pendingTrace cs) = cs.map Call.toEvent := by
  induction cs with
  | nil => rfl
  | cons c cs ih =>
    cases c <;> simp [underlyingCalls, pendingTrace, Call.toEvent, ih, underlyingCalls_toEvent]

theorem fnCalls_pendingTrace (cs : List Call) : fnCalls (pendingTrace cs) = [] := by
  induction cs with
  | nil => rfl
  | cons c cs ih => cases c <;> simp [fnCalls, pendingTrace, ih, fnCalls_toEvent]

theorem firstCode_eq_none (cs : List Call) :
    firstCode cs = none ↔ cs.any Call.isOutput = false := by
  induction cs with
  | nil => simp [firstCode]
  | cons c cs ih =>
    cases c with
    | Header edit =>
      simp only [firstCode, List.any_cons, Call.isOutput, Bool.false_or]
      exact ih
    | WriteHeader code => simp [firstCode, Call.isOutput]
    | Write b => simp [firstCode, Call.isOutput]

theorem firstCode_headers (hs : List (http.Header → http.Header)) (cs : List Call) :
    firstCode (hs.map Call.Header ++ cs) = firstCode cs := by
  induction hs with
  | nil => rfl
  | cons x xs ih => simpa [firstCode] using ih

theorem run_step_eq_exec {σ : Type} (W : ResponseWriter σ) (p : Prog) (w : σ) :
    Prog.run W.step p w = some (W.exec p w) := by
  induction p generalizing w with
  | ret => rfl
  | call c k ih =>
    simp only [Prog.run, ResponseWriter.step, ResponseWriter.exec, ih]
    rfl

theorem exec_ofCalls {σ : Type} (W : ResponseWriter σ) (cs : List Call) (w : σ) :
    (W.exec (Prog.ofCalls cs) w).1.map Prod.fst = cs := by
  induction cs generalizing w with
  | nil => rfl
  | cons c cs ih => simp [Prog.ofCalls, ResponseWriter.exec, ih]

/-- A proxy whose callback is cleared forwards every call and does nothing else. -/
theorem run_fired {σ L : Type} (W : ResponseWriter σ) (p : Prog) (w : σ) (e : Env L) :
    Prog.run (loggingResponseWriter.call W) p ({ w := w, log := none }, e) =
      some ((W.exec p w).1, { w := (W.exec p w).2, log := none },
        { out := e.out, trace := e.trace ++ ((W.exec p w).1.map Prod.fst).map Call.toEvent }) := by
  induction p generalizing w e with
  | ret => simp [Prog.run, ResponseWriter.exec]
  | call c k ih =>
    cases c <;>
      simp [Prog.run, ResponseWriter.exec, ResponseWriter.call, loggingResponseWriter.call,
        loggingResponseWriter.Header, loggingResponseWriter.WriteHeader,
        loggingResponseWriter.Write, loggingResponseWriter.fire, Env.emit, ih, Call.toEvent]

/-- A proxy whose callback is pending calls it at the first WriteHeader or
Write, clears it, and forwards every call. -/
theorem run_pending {σ L : Type} (W : ResponseWriter σ) (f : Int → L → L) (p : Prog) (w : σ)
    (e : Env L) :
    Prog.run (loggingResponseWriter.call W) p ({ w := w, log := some f }, e) =
      some ((W.exec p w).1,
        { w := (W.exec p w).2,
          log := match firstCode ((W.exec p w).1.map Prod.fst) with
            | none => some f
            | some _ => none },
        { out := match firstCode ((W.exec p w).1.map Prod.fst) with
            | none => e.out
            | some code => f code e.out,
          trace := e.trace ++ pendingTrace ((W.exec p w).1.map Prod.fst) }) := by
  induction p generalizing w e with
  | ret => simp [Prog.run, ResponseWriter.exec, firstCode, pendingTrace]
  | call c k ih =>
    cases c with
    | Header edit =>
      simp [Prog.run, ResponseWriter.exec, ResponseWriter.call, loggingResponseWriter.call,
        loggingResponseWriter.Header, Env.emit, ih, firstCode, pendingTrace]
    | WriteHeader code =>
      simp [Prog.run, ResponseWriter.exec, ResponseWriter.call, loggingResponseWriter.call,
        loggingResponseWriter.WriteHeader, loggingResponseWriter.fire, callFunc, Env.emit,
        run_fired, firstCode, pendingTrace]
    | Write b =>
      simp [Prog.run, ResponseWriter.exec, ResponseWriter.call, loggingResponseWriter.call,
        loggingResponseWriter.Write, loggingResponseWriter.fire, callFunc, Env.emit,
        run_fired, firstCode, pendingTrace, http.StatusOK]

section

open utf8 strconv

/-! ## Decoding, quoting and formatting -/

theorem size_cases (s0 : Nat) :
    (size s0 = 0 ∧ ¬(0xC2 ≤ s0 ∧ s0 ≤ 0xF4)) ∨ (size s0 = 2 ∧ 0xC2 ≤ s0 ∧ s0 ≤ 0xDF) ∨
    (size s0 = 3 ∧ 0xE0 ≤ s0 ∧ s0 ≤ 0xEF) ∨ (size s0 = 4 ∧ 0xF0 ≤ s0 ∧ s0 ≤ 0xF4) := by
  unfold size
  split_ifs <;> omega

theorem decode_cases (s0 : Nat) (t : GoString) :
    (s0 < 0x80 ∧ DecodeRuneInString (s0 :: t) = (s0, 1)) ∨
    (0x80 ≤ s0 ∧ DecodeRuneInString (s0 :: t) = (RuneError, 1)) ∨
    (∃ s1 t1, t = s1 :: t1 ∧ 0xC2 ≤ s0 ∧ s0 ≤ 0xDF ∧ 0x80 ≤ s1 ∧ s1 ≤ 0xBF ∧
      DecodeRuneInString (s0 :: t) = (s0 % 32 * 64 + s1 % 64, 2)) ∨
    (∃ s1 s2 t2, t = s1 :: s2 :: t2 ∧ 0xE0 ≤ s0 ∧ s0 ≤ 0xEF ∧ acceptLo s0 ≤ s1 ∧
      s1 ≤ acceptHi s0 ∧ 0x80 ≤ s2 ∧ s2 ≤ 0xBF ∧
      DecodeRuneInString (s0 :: t) = (s0 % 16 * 4096 + s1 % 64 * 64 + s2 % 64, 3)) ∨
    (∃ s1 s2 s3 t3, t = s1 :: s2 :: s3 :: t3 ∧ 0xF0 ≤ s0 ∧ s0 ≤ 0xF4 ∧ acceptLo s0 ≤ s1 ∧
      s1 ≤ acceptHi s0 ∧ 0x80 ≤ s2 ∧ s2 ≤ 0xBF ∧ 0x80 ≤ s3 ∧ s3 ≤ 0xBF ∧
      DecodeRuneInString (s0 :: t) =
        (s0 % 8 * 262144 + s1 % 64 * 4096 + s2 % 64 * 64 + s3 % 64, 4)) := by
  by_cases h0 : s0 < 0x80
  · left
    exact ⟨h0, by simp [DecodeRuneInString, h0]⟩
  · right
    have h0' : 0x80 ≤ s0 := by omega
    by_cases hz : size s0 = 0
    · left
      exact ⟨h0', by simp [DecodeRuneInString, h0, hz]⟩
    · rcases t with _ | ⟨s1, t1⟩
      · left
        exact ⟨h0', by simp [DecodeRuneInString, h0, hz]⟩
      · by_cases h1 : s1 < acceptLo s0 ∨ acceptHi s0 < s1
        · left
          exact ⟨h0', by simp [DecodeRuneInString, h0, hz, h1]⟩
        · have h1a : acceptLo s0 ≤ s1 := by omega
          have h1b : s1 ≤ acceptHi s0 := by omega
          by_cases h2 : size s0 ≤ 2
          · right; left
            have hs : 0xC2 ≤ s0 ∧ s0 ≤ 0xDF := by
              rcases size_cases s0 with h | h | h | h <;> omega
            have ha : acceptLo s0 = 0x80 := by unfold acceptLo; split_ifs <;> omega
            have hb : acceptHi s0 = 0xBF := by unfold acceptHi; split_ifs <;> omega
            exact ⟨s1, t1, rfl, hs.1, hs.2, by omega, by omega,
              by simp [DecodeRuneInString, h0, hz, h1, h2]⟩
          · rcases t1 with _ | ⟨s2, t2⟩
            · left
              exact ⟨h0', by simp [DecodeRuneInString, h0, hz, h1, h2]⟩
            · by_cases h3 : s2 < 0x80 ∨ 0xBF < s2
              · left
                exact ⟨h0', by simp [DecodeRuneInString, h0, hz, h1, h2, h3]⟩
              · by_cases h4 : size s0 ≤ 3
                · right; right; left
                  have hs : 0xE0 ≤ s0 ∧ s0 ≤ 0xEF := by
                    rcases size_cases s0 with h | h | h | h <;> omega
                  exact ⟨s1, s2, t2, rfl, hs.1, hs.2, h1a, h1b, by omega, by omega,
                    by simp [DecodeRuneInString, h0, hz, h1, h2, h3, h4]⟩
                · have hs : 0xF0 ≤ s0 ∧ s0 ≤ 0xF4 := by
                    rcases size_cases s0 with h | h | h | h <;> omega
                  rcases t2 with _ | ⟨s3, t3⟩
                  · left
                    exact ⟨h0', by simp [DecodeRuneInString, h0, hz, h1, h2, h3, h4]⟩
                  · by_cases h5 : s3 < 0x80 ∨ 0xBF < s3
                    · left
                      exact ⟨h0', by simp [DecodeRuneInString, h0, hz, h1, h2, h3, h4, h5]⟩
                    · right; right; right
                      exact ⟨s1, s2, s3, t3, rfl, hs.1, hs.2, h1a, h1b, by omega, by omega,
                        by omega, by omega,
                        by simp [DecodeRuneInString, h0, hz, h1, h2, h3, h4, h5]⟩

/-- The head of a string, as the loop of Quote reads it: an ASCII byte, a
byte that starts no valid encoding, or a valid encoding of 2, 3 or 4 bytes. -/
theorem firstRune_cases (s0 : Nat) (t : GoString) :
    (s0 < 0x80 ∧ firstRune s0 t = (s0, 1)) ∨
    (0x80 ≤ s0 ∧ firstRune s0 t = (RuneError, 1)) ∨
    (∃ s1 t1, t = s1 :: t1 ∧ 0xC2 ≤ s0 ∧ s0 ≤ 0xDF ∧ 0x80 ≤ s1 ∧ s1 ≤ 0xBF ∧
      firstRune s0 t = (s0 % 32 * 64 + s1 % 64, 2)) ∨
    (∃ s1 s2 t2, t = s1 :: s2 :: t2 ∧ 0xE0 ≤ s0 ∧ s0 ≤ 0xEF ∧ acceptLo s0 ≤ s1 ∧
      s1 ≤ acceptHi s0 ∧ 0x80 ≤ s2 ∧ s2 ≤ 0xBF ∧
      firstRune s0 t = (s0 % 16 * 4096 + s1 % 64 * 64 + s2 % 64, 3)) ∨
    (∃ s1 s2 s3 t3, t = s1 :: s2 :: s3 :: t3 ∧ 0xF0 ≤ s0 ∧ s0 ≤ 0xF4 ∧ acceptLo s0 ≤ s1 ∧
      s1 ≤ acceptHi s0 ∧ 0x80 ≤ s2 ∧ s2 ≤ 0xBF ∧ 0x80 ≤ s3 ∧ s3 ≤ 0xBF ∧
      firstRune s0 t = (s0 % 8 * 262144 + s1 % 64 * 4096 + s2 % 64 * 64 + s3 % 64, 4)) := by
  by_cases h0 : s0 < 0x80
  · left
    exact ⟨h0, by simp [firstRune, RuneSelf, h0]⟩
  · have hf : firstRune s0 t = DecodeRuneInString (s0 :: t) := by
      simp only [firstRune, RuneSelf]
      rw [if_pos (by omega)]
    rw [hf]
    exact decode_cases s0 t

theorem acceptLo_cases (s0 : Nat) :
    (s0 = 0xE0 ∧ acceptLo s0 = 0xA0) ∨ (s0 = 0xF0 ∧ acceptLo s0 = 0x90) ∨
    (s0 ≠ 0xE0 ∧ s0 ≠ 0xF0 ∧ acceptLo s0 = 0x80) := by
  unfold acceptLo
  split_ifs <;> omega

theorem acceptHi_cases (s0 : Nat) :
    (s0 = 0xED ∧ acceptHi s0 = 0x9F) ∨ (s0 = 0xF4 ∧ acceptHi s0 = 0x8F) ∨
    (s0 ≠ 0xED ∧ s0 ≠ 0xF4 ∧ acceptHi s0 = 0xBF) := by
  unfold acceptHi
  split_ifs <;> omega

theorem firstRune_width (s0 : Nat) (t : GoString) :
    1 ≤ (firstRune s0 t).2 ∧ (firstRune s0 t).2 ≤ (s0 :: t).length ∧
      (firstRune s0 t).2 ≤ 4 ∧ (0x80 ≤ (firstRune s0 t).1 ∨ (firstRune s0 t).2 = 1) := by
  rcases firstRune_cases s0 t with ⟨_, h⟩ | ⟨_, h⟩ | ⟨s1, t1, rfl, _, _, _, _, h⟩ |
    ⟨s1, s2, t2, rfl, _, _, _, _, _, _, h⟩ | ⟨s1, s2, s3, t3, rfl, _, _, _, _, _, _, _, _, h⟩
  all_goals rw [h]
  all_goals have hlo := acceptLo_cases s0
  all_goals have hhi := acceptHi_cases s0
  all_goals simp only [List.length_cons, RuneError]
  all_goals refine ⟨by omega, by omega, by omega, ?_⟩
  all_goals first
    | exact Or.inr rfl
    | exact Or.inr trivial
    | exact Or.inl (by omega)

/-- Decoding then encoding gives back the bytes that were decoded. -/
theorem appendRune_firstRune (s0 : Nat) (t : GoString)
    (hv : ¬((firstRune s0 t).2 = 1 ∧ (firstRune s0 t).1 = RuneError)) :
    AppendRune (firstRune s0 t).1 = (s0 :: t).take (firstRune s0 t).2 := by
  rcases firstRune_cases s0 t with ⟨h0, h⟩ | ⟨_, h⟩ | ⟨s1, t1, rfl, ha, hb, hc, hd, h⟩ |
    ⟨s1, s2, t2, rfl, ha, hb, hc, hd, he, hf, h⟩ |
    ⟨s1, s2, s3, t3, rfl, ha, hb, hc, hd, he, hf, hg, hh, h⟩
  · rw [h]
    simp only [AppendRune, List.take_succ_cons, List.take_zero]
    rw [if_pos (by omega)]
  · rw [h] at hv
    exact absurd ⟨rfl, rfl⟩ hv
  · rw [h]
    simp only [AppendRune, List.take_succ_cons, List.take_zero]
    rw [if_neg (by omega), if_pos (by omega)]
    congr 1
    · omega
    · congr 1
      omega
  · rw [h]
    simp only [AppendRune, List.take_succ_cons, List.take_zero]
    have hlo := acceptLo_cases s0
    have hhi := acceptHi_cases s0
    rw [if_neg (by omega), if_neg (by omega), if_neg (by omega), if_pos (by omega)]
    congr 1
    · omega
    · congr 1
      · omega
      · congr 1
        omega
  · rw [h]
    simp only [AppendRune, List.take_succ_cons, List.take_zero]
    have hlo := acceptLo_cases s0
    have hhi := acceptHi_cases s0
    rw [if_neg (by omega), if_neg (by omega), if_neg (by omega), if_neg (by omega)]
    congr 1
    · omega
    · congr 1
      · omega
      · congr 1
        · omega
        · congr 1
          omega

theorem isPrint_ascii (tbl : Nat → Bool) (r : Nat) (hr : r < 0x80) :
    IsPrint tbl r = true ↔ 0x20 ≤ r ∧ r ≤ 0x7E := by
  unfold IsPrint
  rw [if_pos (by omega)]
  by_cases h : 0x20 ≤ r ∧ r ≤ 0x7E
  · simp [h]
  · rw [if_neg h, if_neg (by omega)]
    simp [h]

theorem plainRune_iff (tbl : Nat → Bool) (r : Nat) :
    plainRune tbl r = true ↔ IsPrint tbl r = true ∧ r ≠ 34 ∧ r ≠ 92 := by
  simp [plainRune, and_assoc]

theorem escapedRune_plain (tbl : Nat → Bool) (r : Nat) (h : plainRune tbl r = true) :
    escapedRune tbl r = AppendRune r := by
  obtain ⟨h1, h2, h3⟩ := (plainRune_iff tbl r).mp h
  unfold escapedRune
  rw [if_neg (by omega), if_pos h1]

theorem hexAt_length (n : Nat) (shifts : List Nat) : (hexAt n shifts).length = shifts.length := by
  simp [hexAt]

theorem escapedRune_length_nonplain (tbl : Nat → Bool) (r : Nat)
    (h : ¬plainRune tbl r = true) :
    2 ≤ (escapedRune tbl r).length ∧ (0x80 ≤ r → 6 ≤ (escapedRune tbl r).length) := by
  rw [plainRune_iff] at h
  by_cases h1 : r = 34 ∨ r = 92
  · rw [escapedRune, if_pos h1]
    simp only [List.length_cons, List.length_nil]
    omega
  · have h2 : ¬IsPrint tbl r = true := fun hp => h ⟨hp, by omega, by omega⟩
    rw [escapedRune, if_neg h1, if_neg h2]
    repeat' split
    all_goals simp only [List.length_cons, List.length_nil, hexAt_length]
    all_goals omega

theorem quoteStep_invalid (tbl : Nat → Bool) (s0 : Nat) (t : GoString)
    (hv : (firstRune s0 t).2 = 1 ∧ (firstRune s0 t).1 = RuneError) :
    quoteStep tbl s0 t = [92, 120, lowerhex (s0 / 16), lowerhex (s0 % 16)] := by
  rw [quoteStep, if_pos hv]

theorem quoteStep_valid (tbl : Nat → Bool) (s0 : Nat) (t : GoString)
    (hv : ¬((firstRune s0 t).2 = 1 ∧ (firstRune s0 t).1 = RuneError)) :
    quoteStep tbl s0 t = escapedRune tbl (firstRune s0 t).1 := by
  rw [quoteStep, if_neg hv]

/-- A valid encoding of a plain rune is copied as it is. -/
theorem quoteStep_plain (tbl : Nat → Bool) (s0 : Nat) (t : GoString)
    (hv : ¬((firstRune s0 t).2 = 1 ∧ (firstRune s0 t).1 = RuneError))
    (hp : plainRune tbl (firstRune s0 t).1 = true) :
    quoteStep tbl s0 t = (s0 :: t).take (firstRune s0 t).2 := by
  rw [quoteStep_valid tbl s0 t hv, escapedRune_plain tbl _ hp, appendRune_firstRune s0 t hv]

/-- One round of the loop never writes fewer bytes than it reads, and writes
as many only for a valid encoding of a plain rune. -/
theorem quoteStep_length (tbl : Nat → Bool) (s0 : Nat) (t : GoString) :
    (firstRune s0 t).2 ≤ (quoteStep tbl s0 t).length ∧
    ((quoteStep tbl s0 t).length ≤ (firstRune s0 t).2 →
      ¬((firstRune s0 t).2 = 1 ∧ (firstRune s0 t).1 = RuneError) ∧
        plainRune tbl (firstRune s0 t).1 = true) := by
  have hw := firstRune_width s0 t
  by_cases hv : (firstRune s0 t).2 = 1 ∧ (firstRune s0 t).1 = RuneError
  · rw [quoteStep_invalid tbl s0 t hv]
    simp only [List.length_cons, List.length_nil]
    omega
  · by_cases hp : plainRune tbl (firstRune s0 t).1 = true
    · rw [quoteStep_plain tbl s0 t hv hp, List.length_take]
      exact ⟨by omega, fun _ => ⟨hv, hp⟩⟩
    · have hl := escapedRune_length_nonplain tbl _ hp
      rw [quoteStep_valid tbl s0 t hv]
      constructor
      · omega
      · intro hle
        omega

theorem quoteLoop_skip (tbl : Nat → Bool) (k : Nat) (s : GoString) :
    quoteLoop tbl k s = quoteLoop tbl 0 (s.drop k) := by
  induction s generalizing k with
  | nil => simp [quoteLoop]
  | cons a t ih =>
    cases k with
    | zero => rfl
    | succ k => simp only [quoteLoop, List.drop_succ_cons]; exact ih k

theorem plainUTF8_skip (tbl : Nat → Bool) (k : Nat) (s : GoString) :
    plainUTF8 tbl k s = plainUTF8 tbl 0 (s.drop k) := by
  induction s generalizing k with
  | nil => simp [plainUTF8]
  | cons a t ih =>
    cases k with
    | zero => rfl
    | succ k => simp only [plainUTF8, List.drop_succ_cons]; exact ih k

theorem quoteLoop_cons (tbl : Nat → Bool) (s0 : Nat) (t : GoString) :
    quoteLoop tbl 0 (s0 :: t) =
      quoteStep tbl s0 t ++ quoteLoop tbl 0 ((s0 :: t).drop (firstRune s0 t).2) := by
  have hw := firstRune_width s0 t
  obtain ⟨k, hk⟩ : ∃ k, (firstRune s0 t).2 = k + 1 := ⟨(firstRune s0 t).2 - 1, by omega⟩
  rw [hk, List.drop_succ_cons, ← quoteLoop_skip]
  simp only [quoteLoop, hk, Nat.add_sub_cancel]

theorem plainUTF8_cons (tbl : Nat → Bool) (s0 : Nat) (t : GoString) :
    plainUTF8 tbl 0 (s0 :: t) = true ↔
      ¬((firstRune s0 t).2 = 1 ∧ (firstRune s0 t).1 = RuneError) ∧
        plainRune tbl (firstRune s0 t).1 = true ∧
        plainUTF8 tbl 0 ((s0 :: t).drop (firstRune s0 t).2) = true := by
  have hw := firstRune_width s0 t
  obtain ⟨k, hk⟩ : ∃ k, (firstRune s0 t).2 = k + 1 := ⟨(firstRune s0 t).2 - 1, by omega⟩
  rw [hk, List.drop_succ_cons, ← plainUTF8_skip]
  simp only [plainUTF8, hk, Nat.add_sub_cancel, Bool.and_eq_true, Bool.not_eq_true',
    decide_eq_false_iff_not, and_assoc]

theorem quoteLoop_spec (tbl : Nat → Bool) (n : Nat) :
    ∀ s : GoString, s.length ≤ n →
      s.length ≤ (quoteLoop tbl 0 s).length ∧
        (quoteLoop tbl 0 s = s ↔ plainUTF8 tbl 0 s = true) := by
  induction n with
  | zero =>
    intro s hs
    have : s = [] := List.length_eq_zero.mp (by omega)
    subst this
    simp [quoteLoop, plainUTF8]
  | succ n ih =>
    intro s hs
    rcases s with _ | ⟨s0, t⟩
    · simp [quoteLoop, plainUTF8]
    · have hw := firstRune_width s0 t
      have hst := quoteStep_length tbl s0 t
      have hsplit : (s0 :: t).take (firstRune s0 t).2 ++ (s0 :: t).drop (firstRune s0 t).2 =
          s0 :: t := List.take_append_drop _ _
      have hdl : ((s0 :: t).drop (firstRune s0 t).2).length =
          (s0 :: t).length - (firstRune s0 t).2 := List.length_drop _ _
      have hrest := ih ((s0 :: t).drop (firstRune s0 t).2)
        (by rw [hdl]; simp only [List.length_cons] at hs ⊢; omega)
      rw [quoteLoop_cons, plainUTF8_cons]
      refine ⟨by rw [List.length_append]; omega, ?_, ?_⟩
      · intro heq
        have hlen := congrArg List.length heq
        rw [List.length_append] at hlen
        have hvp := hst.2 (by omega)
        rw [quoteStep_plain tbl s0 t hvp.1 hvp.2] at heq
        nth_rewrite 3 [← hsplit] at heq
        exact ⟨hvp.1, hvp.2, hrest.2.mp (List.append_cancel_left heq)⟩
      · rintro ⟨hv, hp, hr⟩
        rw [quoteStep_plain tbl s0 t hv hp, hrest.2.mpr hr, hsplit]

/-- The literal strconv.Quote gives is the string unchanged between double
quotes exactly when the string is valid UTF-8 whose characters are all
printable and are neither the double quote nor the backslash. -/
theorem Quote_eq_iff (tbl : Nat → Bool) (s : GoString) :
    Quote tbl s = 34 :: (s ++ [34]) ↔ plainUTF8 tbl 0 s = true := by
  rw [← (quoteLoop_spec tbl s.length s (le_refl _)).2]
  simp [Quote]

theorem firstRune_ascii (s0 : Nat) (t : GoString) (h : s0 < 0x80) : firstRune s0 t = (s0, 1) := by
  simp only [firstRune, RuneSelf]
  rw [if_neg (by omega)]

theorem plainUTF8_of_ascii (tbl : Nat → Bool) (s : GoString)
    (h : ∀ b ∈ s, 0x20 ≤ b ∧ b ≤ 0x7E ∧ b ≠ 34 ∧ b ≠ 92) : plainUTF8 tbl 0 s = true := by
  induction s with
  | nil => rfl
  | cons s0 t ih =>
    have h0 := h s0 (List.mem_cons_self _ _)
    rw [plainUTF8_cons, firstRune_ascii s0 t (by omega)]
    refine ⟨?_, ?_, ?_⟩
    · simp only [RuneError]
      omega
    · exact (plainRune_iff tbl s0).mpr
        ⟨(isPrint_ascii tbl s0 (by omega)).mpr ⟨h0.1, h0.2.1⟩, h0.2.2.1, h0.2.2.2⟩
    · exact ih (fun b hb => h b (List.mem_cons_of_mem _ hb))

theorem appendRune_bytes (tbl : Nat → Bool) (r : Nat) (h : plainRune tbl r = true) :
    ∀ b ∈ AppendRune r, 0x20 ≤ b ∧ b ≠ 34 ∧ b ≠ 92 ∧ b ≠ 0x7F := by
  obtain ⟨h1, h2, h3⟩ := (plainRune_iff tbl r).mp h
  intro b hb
  by_cases hr : r ≤ 0x7F
  · rw [AppendRune, if_pos hr] at hb
    have hp := (isPrint_ascii tbl r (by omega)).mp h1
    simp only [List.mem_singleton] at hb
    omega
  · rw [AppendRune, if_neg hr] at hb
    split_ifs at hb
    all_goals simp only [List.mem_cons, List.mem_singleton, List.mem_nil_iff, or_false] at hb
    all_goals omega

/-- A string that strconv.Quote copies as it is holds no control byte, no
double quote and no backslash. -/
theorem plainUTF8_bytes (tbl : Nat → Bool) (n : Nat) :
    ∀ s : GoString, s.length ≤ n → plainUTF8 tbl 0 s = true →
      ∀ b ∈ s, 0x20 ≤ b ∧ b ≠ 34 ∧ b ≠ 92 ∧ b ≠ 0x7F := by
  induction n with
  | zero =>
    intro s hs _ b hb
    have : s = [] := List.length_eq_zero.mp (by omega)
    subst this
    cases hb
  | succ n ih =>
    intro s hs hp b hb
    rcases s with _ | ⟨s0, t⟩
    · cases hb
    · have hw := firstRune_width s0 t
      obtain ⟨hv, hpr, hrest⟩ := (plainUTF8_cons tbl s0 t).mp hp
      have hdl : ((s0 :: t).drop (firstRune s0 t).2).length =
          (s0 :: t).length - (firstRune s0 t).2 := List.length_drop _ _
      rw [← List.take_append_drop (firstRune s0 t).2 (s0 :: t), List.mem_append] at hb
      rcases hb with hb | hb
      · rw [← appendRune_firstRune s0 t hv] at hb
        exact appendRune_bytes tbl _ hpr b hb
      · exact ih _ (by rw [hdl]; simp only [List.length_cons] at hs ⊢; omega) hrest b hb

theorem lit_format : lit "%s %s %d %q" = [37, 115, 32, 37, 115, 32, 37, 100, 32, 37, 113] := by
  decide

theorem lit_space : lit " " = [32] := by decide

theorem Sprintf_line (tbl : Nat → Bool) (M U A : GoString) (C : Int) :
    fmt.Sprintf tbl (lit "%s %s %d %q")
        [fmt.Arg.str M, fmt.Arg.str U, fmt.Arg.int C, fmt.Arg.str A] =
      some (M ++ lit " " ++ U ++ lit " " ++ lit (toString C) ++ lit " " ++ strconv.Quote tbl A) := by
  rw [lit_format, lit_space]
  simp [fmt.Sprintf, fmt.doPrintf, fmt.verb]

end

/-! ## The decorator -/

theorem newProxy_eq {σ L : Type} (fn : LogFunc L) (w : σ) (r : http.Request) (e : Env L) :
    newProxy fn w r e =
      ({ w := w, log := (fn r e.out).1 },
        { out := (fn r e.out).2, trace := e.trace ++ [Event.fn r] }) := rfl

/-- What one invocation of the handler returned by WithCustomLog does, in closed form. -/
theorem WithCustomLog_eq {σ L : Type} (h : Handler) (fn : LogFunc L) (W : ResponseWriter σ)
    (w : σ) (r : http.Request) (e : Env L) :
    WithCustomLog h fn W w r e =
      some ((W.exec (h r) w).1, (W.exec (h r) w).2,
        match (fn r e.out).1 with
        | none =>
          { out := (fn r e.out).2,
            trace := e.trace ++ [Event.fn r] ++ ((W.exec (h r) w).1.map Prod.fst).map Call.toEvent }
        | some f =>
          { out := match firstCode ((W.exec (h r) w).1.map Prod.fst) with
              | none => (fn r e.out).2
              | some code => f code (fn r e.out).2,
            trace := e.trace ++ [Event.fn r] ++ pendingTrace ((W.exec (h r) w).1.map Prod.fst) }) := by
  unfold WithCustomLog Handler.ServeHTTP
  rw [newProxy_eq]
  cases hcb : (fn r e.out).1 with
  | none => simp [run_fired]
  | some f => simp [run_pending]

theorem firstCode_startsWith {σ : Type} (W : ResponseWriter σ) (C : Int) (p : Prog)
    (hp : Prog.StartsWithWriteHeader C p) (w : σ) :
    firstCode ((W.exec p w).1.map Prod.fst) = some C := by
  induction hp generalizing w with
  | here k => simp [ResponseWriter.exec, firstCode]
  | later edit k _ ih => simp [ResponseWriter.exec, firstCode, ih]

theorem firstCode_isSome (cs : List Call) (h : cs.any Call.isOutput = true) :
    ∃ code, firstCode cs = some code := by
  cases hfc : firstCode cs with
  | none => rw [(firstCode_eq_none cs).mp hfc] at h; cases h
  | some code => exact ⟨code, rfl⟩

/-- One invocation of the handler returned by WithCustomLog, described through
the run of the wrapped program directly on the writer. -/
theorem WithCustomLog_spec {σ L : Type} (h : Handler) (fn : LogFunc L) (W : ResponseWriter σ)
    (w : σ) (r : http.Request) (e : Env L) :
    ∃ tr w1 e1 evs,
      Prog.run W.step (h r) w = some (tr, w1) ∧
      WithCustomLog h fn W w r e = some (tr, w1, e1) ∧
      e1.trace = e.trace ++ Event.fn r :: evs ∧
      fnCalls evs = [] ∧
      underlyingCalls evs = (tr.map Prod.fst).map Call.toEvent ∧
      ((fn r e.out).1 = none → e1.out = (fn r e.out).2 ∧ callbackCodes evs = []) ∧
      (∀ f, (fn r e.out).1 = some f →
        ((tr.map Prod.fst).any Call.isOutput = false →
          e1.out = (fn r e.out).2 ∧ callbackCodes evs = []) ∧
        (∀ code, firstCode (tr.map Prod.fst) = some code →
          e1.out = f code (fn r e.out).2 ∧ callbackCodes evs = [code])) := by
  cases hcb : (fn r e.out).1 with
  | none =>
    refine ⟨_, _, _, ((W.exec (h r) w).1.map Prod.fst).map Call.toEvent,
      run_step_eq_exec W (h r) w, WithCustomLog_eq h fn W w r e, ?_, fnCalls_toEvent _,
      underlyingCalls_toEvent _, ?_, ?_⟩
    · simp [hcb]
    · intro _
      exact ⟨by simp [hcb], callbackCodes_toEvent _⟩
    · intro f hf
      cases hf
  | some f =>
    refine ⟨_, _, _, pendingTrace ((W.exec (h r) w).1.map Prod.fst),
      run_step_eq_exec W (h r) w, WithCustomLog_eq h fn W w r e, ?_, fnCalls_pendingTrace _,
      underlyingCalls_pendingTrace _, ?_, ?_⟩
    · simp [hcb]
    · intro hn
      cases hn
    · intro f2 hf
      cases hf
      constructor
      · intro hany
        have hfc := (firstCode_eq_none _).mpr hany
        exact ⟨by simp [hcb, hfc], by simp [callbackCodes_pendingTrace, hfc]⟩
      · intro code hfc
        exact ⟨by simp [hcb, hfc], by simp [callbackCodes_pendingTrace, hfc]⟩

theorem lit_dquote : lit "\x22" = [34] := by decide

/-! ## The properties -/

/-- C2: on a fresh loggingResponseWriter with callback `f`, when the first
call other than Header is WriteHeader(C) the callback is invoked once, with C,
whatever calls follow; when it is a Write the callback is invoked once, with
200, also when a WriteHeader with another code follows. -/
theorem callback_receives_first_status {σ L : Type} (W : ResponseWriter σ) (f : Int → L → L)
    (hs : List (http.Header → http.Header)) (rest : List Call) (C : Int) (b : Bytes)
    (w : σ) (e : Env L) :
    (∃ tr rw e1,
      Prog.run (loggingResponseWriter.call W)
          (Prog.ofCalls (hs.map Call.Header ++ Call.WriteHeader C :: rest))
          ({ w := w, log := some f }, e) = some (tr, rw, e1) ∧
        callbackCodes e1.trace = callbackCodes e.trace ++ [C] ∧ e1.out = f C e.out) ∧
    (∃ tr rw e1,
      Prog.run (loggingResponseWriter.call W)
          (Prog.ofCalls (hs.map Call.Header ++ Call.Write b :: rest))
          ({ w := w, log := some f }, e) = some (tr, rw, e1) ∧
        callbackCodes e1.trace = callbackCodes e.trace ++ [200] ∧ e1.out = f 200 e.out) := by
  constructor
  · refine ⟨_, _, _, run_pending W f _ w e, ?_, ?_⟩
    · simp [callbackCodes_append, callbackCodes_pendingTrace, exec_ofCalls, firstCode_headers,
        firstCode]
    · simp [exec_ofCalls, firstCode_headers, firstCode]
  · refine ⟨_, _, _, run_pending W f _ w e, ?_, ?_⟩
    · simp [callbackCodes_append, callbackCodes_pendingTrace, exec_ofCalls, firstCode_headers,
        firstCode]
    · simp [exec_ofCalls, firstCode_headers, firstCode]

/-- C3: whether the callback of a loggingResponseWriter is pending or already
cleared, a sequence of Header, WriteHeader and Write calls made on it returns
the same results as the same calls made directly on the underlying writer,
leaves the underlying writer in the same state, and reaches it as exactly those
calls in that order; Header returns the underlying writer's collection and
Write returns the pair the underlying Write returned. -/
theorem calls_forwarded_unchanged {σ L : Type} (W : ResponseWriter σ)
    (log : Option (Int → L → L)) (cs : List Call) (w : σ) (e : Env L) :
    (∃ tr w1 rw e1,
      Prog.run W.step (Prog.ofCalls cs) w = some (tr, w1) ∧
      Prog.run (loggingResponseWriter.call W) (Prog.ofCalls cs) ({ w := w, log := log }, e) =
        some (tr, rw, e1) ∧
      rw.w = w1 ∧
      tr.map Prod.fst = cs ∧
      underlyingCalls e1.trace = underlyingCalls e.trace ++ cs.map Call.toEvent) ∧
    (∀ edit, (loggingResponseWriter.Header W { w := w, log := log } edit e).map (fun x => x.1) =
      some (W.Header w)) ∧
    (∀ b, (loggingResponseWriter.Write W { w := w, log := log } b e).map (fun x => x.1) =
      some (W.Write w b).1) := by
  refine ⟨?_, ?_, ?_⟩
  · cases log with
    | none =>
      refine ⟨_, _, _, _, run_step_eq_exec W _ w, run_fired W _ w e, rfl, exec_ofCalls W cs w, ?_⟩
      simp [underlyingCalls_append, underlyingCalls_toEvent, exec_ofCalls]
    | some f =>
      refine ⟨_, _, _, _, run_step_eq_exec W _ w, run_pending W f _ w e, rfl,
        exec_ofCalls W cs w, ?_⟩
      simp [underlyingCalls_append, underlyingCalls_pendingTrace, exec_ofCalls]
  · intro edit
    rfl
  · intro b
    cases log <;> rfl

/-- C4, as stated, fails in both of its parts. A handler that returns without
calling WriteHeader or Write leaves the log buffer empty and the callback
uncalled, while the recorder reports status 200. And for a handler that sends
103 Early Hints and then the status 200 to the response writer of a server,
the one line logged carries 103 while the status of the response is 200. -/
theorem no_line_or_other_status :
    (WithLog (fun _ => Prog.ret) (bufLogger (fun _ => true)) (recorder (fun _ => []))
        NewRecorder testRequest { out := [], trace := [] }).map
        (fun x => (x.2.1.Code, x.2.2.out, callbackCodes x.2.2.trace)) =
      some (200, [], []) ∧
    (WithLog earlyHintsHandler (bufLogger (fun _ => true)) server newServerResponse testRequest
        { out := [], trace := [] }).map
        (fun x => (x.2.1.status, x.2.1.informational, x.2.2.out, callbackCodes x.2.2.trace)) =
      some (200, [103], lit "GET /index.html?foo=bar 103 \x22user agent/0.1\x22\n", [103]) := by
  decide

/-- C4, amended: for every response sink, one invocation of the handler
returned by WithLog passes the calls of the wrapped handler on to the sink;
when the wrapped handler made no WriteHeader and no Write, the logger is
left untouched and the callback is not invoked; when it made at least one,
Printf is applied exactly once; the status code it is given is the code of
the first WriteHeader when that call comes before every Write, and 200 when
a Write comes first. -/
theorem one_line_with_first_status {σ L : Type} (h : Handler) (l : Logger L)
    (W : ResponseWriter σ) (w : σ) (r : http.Request) (e : Env L) :
    ∃ tr w1 e1,
      Prog.run W.step (h r) w = some (tr, w1) ∧
      WithLog h l W w r e = some (tr, w1, e1) ∧
      underlyingCalls e1.trace = underlyingCalls e.trace ++ (tr.map Prod.fst).map Call.toEvent ∧
      ((tr.map Prod.fst).any Call.isOutput = false →
        e1.out = e.out ∧ callbackCodes e1.trace = callbackCodes e.trace) ∧
      ((tr.map Prod.fst).any Call.isOutput = true →
        ∃ code,
          e1.out = l.Printf e.out (lit "%s %s %d %q")
            [fmt.Arg.str r.Method, fmt.Arg.str r.URL, fmt.Arg.int code,
              fmt.Arg.str r.UserAgent] ∧
          callbackCodes e1.trace = callbackCodes e.trace ++ [code]) ∧
      (∀ (hs : List (http.Header → http.Header)) C rest,
        tr.map Prod.fst = hs.map Call.Header ++ Call.WriteHeader C :: rest →
        e1.out = l.Printf e.out (lit "%s %s %d %q")
          [fmt.Arg.str r.Method, fmt.Arg.str r.URL, fmt.Arg.int C, fmt.Arg.str r.UserAgent] ∧
        callbackCodes e1.trace = callbackCodes e.trace ++ [C]) ∧
      (∀ (hs : List (http.Header → http.Header)) b rest,
        tr.map Prod.fst = hs.map Call.Header ++ Call.Write b :: rest →
        e1.out = l.Printf e.out (lit "%s %s %d %q")
          [fmt.Arg.str r.Method, fmt.Arg.str r.URL, fmt.Arg.int 200, fmt.Arg.str r.UserAgent] ∧
        callbackCodes e1.trace = callbackCodes e.trace ++ [200]) := by
  obtain ⟨tr, w1, e1, evs, hrun, hlog, htr, _, hund, _, hsome⟩ :=
    WithCustomLog_spec h (withLogFunc l) W w r e
  obtain ⟨hnone, hfirst⟩ := hsome _ rfl
  have hcodes : callbackCodes e1.trace = callbackCodes e.trace ++ callbackCodes evs := by
    rw [htr, callbackCodes_append]
    rfl
  have hcalls : underlyingCalls e1.trace =
      underlyingCalls e.trace ++ (tr.map Prod.fst).map Call.toEvent := by
    rw [htr, underlyingCalls_append, ← hund]
    rfl
  refine ⟨tr, w1, e1, hrun, hlog, hcalls, ?_, ?_, ?_, ?_⟩
  · intro hany
    obtain ⟨ho, hc⟩ := hnone hany
    exact ⟨ho, by rw [hcodes, hc, List.append_nil]⟩
  · intro hany
    obtain ⟨code, hfc⟩ := firstCode_isSome _ hany
    obtain ⟨ho, hc⟩ := hfirst code hfc
    exact ⟨code, ho, by rw [hcodes, hc]⟩
  · intro hs C rest heq
    obtain ⟨ho, hc⟩ := hfirst C (by rw [heq, firstCode_headers]; rfl)
    exact ⟨ho, by rw [hcodes, hc]⟩
  · intro hs b rest heq
    obtain ⟨ho, hc⟩ := hfirst 200 (by rw [heq, firstCode_headers]; rfl)
    exact ⟨ho, by rw [hcodes, hc]⟩

/-- C5: when the user-agent consists of printable ASCII characters other than
the double quote and the backslash and the first call of the wrapped handler
other than Header is WriteHeader(C), one invocation of the handler returned by
WithLog invokes the callback once, applies the logger's Printf exactly once,
and the line rendered from the format and operands it is given is the
method, a space, the URL, a space, C in decimal, a space and the user-agent
between double quotes, with nothing after the closing quote. -/
theorem log_line_format {σ L : Type} (tbl : Nat → Bool) (h : Handler) (l : Logger L)
    (W : ResponseWriter σ) (w : σ) (r : http.Request) (C : Int) (e : Env L)
    (hA : ∀ b ∈ r.UserAgent, 0x20 ≤ b ∧ b ≤ 0x7E ∧ b ≠ 34 ∧ b ≠ 92)
    (hh : Prog.StartsWithWriteHeader C (h r)) :
    ∃ tr w1 e1,
      WithLog h l W w r e = some (tr, w1, e1) ∧
      callbackCodes e1.trace = callbackCodes e.trace ++ [C] ∧
      e1.out = l.Printf e.out (lit "%s %s %d %q")
        [fmt.Arg.str r.Method, fmt.Arg.str r.URL, fmt.Arg.int C, fmt.Arg.str r.UserAgent] ∧
      fmt.Sprintf tbl (lit "%s %s %d %q")
        [fmt.Arg.str r.Method, fmt.Arg.str r.URL, fmt.Arg.int C, fmt.Arg.str r.UserAgent] =
        some (r.Method ++ lit " " ++ r.URL ++ lit " " ++ lit (toString C) ++ lit " " ++
          (lit "\x22" ++ r.UserAgent ++ lit "\x22")) := by
  have hfc := firstCode_startsWith W C (h r) hh w
  refine ⟨_, _, _, WithCustomLog_eq h (withLogFunc l) W w r e, ?_, ?_, ?_⟩
  · simp [withLogFunc, hfc, callbackCodes_append, callbackCodes_pendingTrace, callbackCodes]
  · simp [withLogFunc, hfc]
  · rw [Sprintf_line, (Quote_eq_iff tbl r.UserAgent).mpr (plainUTF8_of_ascii tbl _ hA),
      lit_dquote]
    rfl

theorem log_line_format_witness :
    (∀ b ∈ testRequest.UserAgent, 0x20 ≤ b ∧ b ≤ 0x7E ∧ b ≠ 34 ∧ b ≠ 92) ∧
    Prog.StartsWithWriteHeader 204 (testHandler testRequest) ∧
    ∃ tr w1 e1,
      WithLog testHandler (bufLogger (fun _ => true)) (recorder (fun _ => [])) NewRecorder
        testRequest { out := [], trace := [] } = some (tr, w1, e1) ∧
      callbackCodes e1.trace = [] ++ [204] ∧
      e1.out = (bufLogger (fun _ => true)).Printf [] (lit "%s %s %d %q")
        [fmt.Arg.str (lit "GET"), fmt.Arg.str (lit "/index.html?foo=bar"), fmt.Arg.int 204,
          fmt.Arg.str (lit "user agent/0.1")] ∧
      fmt.Sprintf (fun _ => true) (lit "%s %s %d %q")
        [fmt.Arg.str (lit "GET"), fmt.Arg.str (lit "/index.html?foo=bar"), fmt.Arg.int 204,
          fmt.Arg.str (lit "user agent/0.1")] =
        some (lit "GET /index.html?foo=bar 204 \x22user agent/0.1\x22") :=
  ⟨by decide, Prog.StartsWithWriteHeader.here _,
    log_line_format (fun _ => true) testHandler (bufLogger (fun _ => true))
      (recorder (fun _ => [])) NewRecorder testRequest 204 { out := [], trace := [] }
      (by decide) (Prog.StartsWithWriteHeader.here _)⟩

/-- C6, as stated, fails: for the user-agent made of a, a double quote and b,
the line written for the handler of TestWithLog carries the double quote
preceded by a backslash, not the user-agent unchanged between double quotes;
and for the user-agent made of the single byte 0xFF, which is not valid
UTF-8, it carries backslash, x, f, f between the double quotes. -/
theorem user_agent_not_verbatim :
    (WithLog testHandler (bufLogger (fun _ => true)) (recorder (fun _ => [])) NewRecorder
        { Method := lit "GET", URL := lit "/",
          Header := http.Header.Set [] (lit "User-Agent") (lit "a\x22b") }
        { out := [], trace := [] }).map (fun x => x.2.2.out) =
      some (lit "GET / 204 \x22a\x5c\x22b\x22\n") ∧
    lit "GET / 204 \x22a\x5c\x22b\x22\n" ≠ lit "GET / 204 \x22" ++ lit "a\x22b" ++ lit "\x22\n" ∧
    (WithLog testHandler (bufLogger (fun _ => true)) (recorder (fun _ => [])) NewRecorder
        { Method := lit "GET", URL := lit "/",
          Header := http.Header.Set [] (lit "User-Agent") [0xFF] }
        { out := [], trace := [] }).map (fun x => x.2.2.out) =
      some (lit "GET / 204 \x22\x5cxff\x22\n") ∧
    lit "GET / 204 \x22\x5cxff\x22\n" ≠ lit "GET / 204 \x22" ++ [0xFF] ++ lit "\x22\n" := by
  decide

/-- C6, amended: whatever bytes the method, the URL and the user-agent hold,
the line WithLog has rendered carries the method and the URL as they are and
the user-agent as its Go double-quoted literal (strconv.Quote). That literal
is the user-agent unchanged between double quotes exactly when the user-agent
is valid UTF-8 whose characters are all printable and are neither the double
quote nor the backslash; it is never so for a user-agent that holds a double
quote, a backslash, a byte below 0x20 or the byte 0x7F. -/
theorem user_agent_quoted {σ L : Type} (tbl : Nat → Bool) (h : Handler) (l : Logger L)
    (W : ResponseWriter σ) (w : σ) (r : http.Request) (e : Env L) :
    (∃ tr w1 e1,
      WithLog h l W w r e = some (tr, w1, e1) ∧
      (e1.out = e.out ∨
        ∃ C, e1.out = l.Printf e.out (lit "%s %s %d %q")
            [fmt.Arg.str r.Method, fmt.Arg.str r.URL, fmt.Arg.int C, fmt.Arg.str r.UserAgent] ∧
          fmt.Sprintf tbl (lit "%s %s %d %q")
            [fmt.Arg.str r.Method, fmt.Arg.str r.URL, fmt.Arg.int C, fmt.Arg.str r.UserAgent] =
            some (r.Method ++ lit " " ++ r.URL ++ lit " " ++ lit (toString C) ++ lit " " ++
              strconv.Quote tbl r.UserAgent))) ∧
    (strconv.Quote tbl r.UserAgent = lit "\x22" ++ r.UserAgent ++ lit "\x22" ↔
      strconv.plainUTF8 tbl 0 r.UserAgent = true) ∧
    (∀ b ∈ r.UserAgent, (b < 0x20 ∨ b = 34 ∨ b = 92 ∨ b = 0x7F) →
      strconv.Quote tbl r.UserAgent ≠ lit "\x22" ++ r.UserAgent ++ lit "\x22") := by
  have hq : strconv.Quote tbl r.UserAgent = lit "\x22" ++ r.UserAgent ++ lit "\x22" ↔
      strconv.plainUTF8 tbl 0 r.UserAgent = true := by
    rw [lit_dquote]
    exact Quote_eq_iff tbl r.UserAgent
  refine ⟨⟨_, _, _, WithCustomLog_eq h (withLogFunc l) W w r e, ?_⟩, hq, ?_⟩
  · cases hfc : firstCode ((W.exec (h r) w).1.map Prod.fst) with
    | none => left; simp [withLogFunc, hfc]
    | some code =>
      right
      exact ⟨code, by simp [withLogFunc, hfc], Sprintf_line tbl _ _ _ _⟩
  · intro b hb hbad heq
    have := plainUTF8_bytes tbl _ _ (le_refl _) (hq.mp heq) b hb
    omega

/-- C7: for every handler, LogFunc, request and response sink, running the
handler returned by WithCustomLog against the sink returns, gives the wrapped
handler the same results for its calls and leaves the sink in the same final
state as running the wrapped handler directly against it. For the handler of
TestWithLog_implicitCode the recorder ends with status 200, Content-Type
text/plain and the body written. -/
theorem same_response_as_wrapped_handler {σ L : Type} (h : Handler) (fn : LogFunc L)
    (W : ResponseWriter σ) (w : σ) (r : http.Request) (e : Env L) :
    (∃ tr w1 e1,
      h.ServeHTTP W.step w r = some (tr, w1) ∧
      WithCustomLog h fn W w r e = some (tr, w1, e1)) ∧
    (WithLog testHandlerImplicit (bufLogger (fun _ => true)) (recorder (fun _ => []))
        NewRecorder testRequest { out := [], trace := [] }).map
        (fun x => (x.2.1.Code, x.2.1.HeaderMap.Get (lit "Content-Type"), x.2.1.Body, x.2.2.out)) =
      some (200, lit "text/plain", lit "ok\n",
        lit "GET /index.html?foo=bar 200 \x22user agent/0.1\x22\n") := by
  refine ⟨⟨_, _, _, run_step_eq_exec W (h r) w, WithCustomLog_eq h fn W w r e⟩, ?_⟩
  decide

/-- C8, as stated, fails in its last part: a LogFunc that returns one and
the same callback for every request makes the proxies of two invocations, for
two different requests, hold the same callback. -/
theorem constant_logfunc_shares_callback :
    testRequest ≠ { testRequest with URL := lit "/other" } ∧
    (newProxy sharedLogFunc NewRecorder testRequest { out := [], trace := [] }).1.log =
      (newProxy sharedLogFunc NewRecorder { testRequest with URL := lit "/other" }
        { out := [204], trace := [] }).1.log ∧
    ((newProxy sharedLogFunc NewRecorder testRequest { out := [], trace := [] }).1.log).isSome =
      true :=
  ⟨by decide, rfl, rfl⟩

/-- C8, amended: one invocation of the handler returned by WithCustomLog
calls the LogFunc exactly once, with the request, before any call of the
wrapped handler (also when that handler writes nothing), and runs the wrapped
handler exactly once on that request: the writer receives the calls of one run
of it, in order, and the only callback invoked is the one this call of the
LogFunc returned, at most once, on the state the LogFunc left. A following
invocation starts again with a pending latch around its own writer and the
callback of its own call of the LogFunc, so it logs again. -/
theorem decorator_invocation {σ L : Type} (h : Handler) (fn : LogFunc L)
    (W : ResponseWriter σ) (w : σ) (r r2 : http.Request) (e : Env L) :
    ∃ tr w1 e1 evs,
      Prog.run W.step (h r) w = some (tr, w1) ∧
      WithCustomLog h fn W w r e = some (tr, w1, e1) ∧
      e1.trace = e.trace ++ Event.fn r :: evs ∧
      fnCalls evs = [] ∧
      underlyingCalls evs = (tr.map Prod.fst).map Call.toEvent ∧
      ((fn r e.out).1 = none → e1.out = (fn r e.out).2 ∧ callbackCodes evs = []) ∧
      (∀ f, (fn r e.out).1 = some f →
        ((tr.map Prod.fst).any Call.isOutput = false →
          e1.out = (fn r e.out).2 ∧ callbackCodes evs = []) ∧
        ((tr.map Prod.fst).any Call.isOutput = true →
          ∃ code, e1.out = f code (fn r e.out).2 ∧ callbackCodes evs = [code])) ∧
      ∃ tr2 w2 e2 evs2,
        Prog.run W.step (h r2) w1 = some (tr2, w2) ∧
        WithCustomLog h fn W w1 r2 e1 = some (tr2, w2, e2) ∧
        e2.trace = e1.trace ++ Event.fn r2 :: evs2 ∧
        fnCalls evs2 = [] ∧
        underlyingCalls evs2 = (tr2.map Prod.fst).map Call.toEvent ∧
        (∀ f2, (fn r2 e1.out).1 = some f2 → (tr2.map Prod.fst).any Call.isOutput = true →
          ∃ code, e2.out = f2 code (fn r2 e1.out).2 ∧ callbackCodes evs2 = [code]) := by
  obtain ⟨tr, w1, e1, evs, hrun, hlog, htr, hfn, hund, hnil, hsome⟩ :=
    WithCustomLog_spec h fn W w r e
  obtain ⟨tr2, w2, e2, evs2, hrun2, hlog2, htr2, hfn2, hund2, _, hsome2⟩ :=
    WithCustomLog_spec h fn W w1 r2 e1
  refine ⟨tr, w1, e1, evs, hrun, hlog, htr, hfn, hund, hnil, ?_,
    tr2, w2, e2, evs2, hrun2, hlog2, htr2, hfn2, hund2, ?_⟩
  · intro f hf
    refine ⟨(hsome f hf).1, fun hany => ?_⟩
    obtain ⟨code, hfc⟩ := firstCode_isSome _ hany
    exact ⟨code, (hsome f hf).2 code hfc⟩
  · intro f2 hf2 hany
    obtain ⟨code, hfc⟩ := firstCode_isSome _ hany
    exact ⟨code, (hsome2 f2 hf2).2 code hfc⟩

/-- C10: when the LogFunc returns a nil callback for the request, one
invocation of the handler returned by WithCustomLog returns (no call fails),
invokes no callback, leaves the log sink as the LogFunc left it, gives the
wrapped handler the results the underlying writer gives when called directly,
and forwards every call to the underlying writer in order. -/
theorem nil_callback_is_inert {σ L : Type} (h : Handler) (fn : LogFunc L)
    (W : ResponseWriter σ) (w : σ) (r : http.Request) (e : Env L)
    (hnil : (fn r e.out).1 = none) :
    ∃ tr w1 e1,
      h.ServeHTTP W.step w r = some (tr, w1) ∧
      WithCustomLog h fn W w r e = some (tr, w1, e1) ∧
      callbackCodes e1.trace = callbackCodes e.trace ∧
      e1.out = (fn r e.out).2 ∧
      underlyingCalls e1.trace =
        underlyingCalls e.trace ++ (tr.map Prod.fst).map Call.toEvent := by
  refine ⟨_, _, _, run_step_eq_exec W (h r) w, WithCustomLog_eq h fn W w r e, ?_, ?_, ?_⟩
  · simp [-List.map_map, hnil, callbackCodes_append, callbackCodes_toEvent, callbackCodes]
  · simp [hnil]
  · simp [-List.map_map, hnil, underlyingCalls_append, underlyingCalls_toEvent, underlyingCalls]

theorem nil_callback_is_inert_witness :
    ((fun (_ : http.Request) (out : String) =>
        ((none : Option (Int → String → String)), out)) testRequest "").1 = none ∧
    ∃ tr w1 e1,
      testHandlerImplicit.ServeHTTP (recorder (fun _ => [])).step NewRecorder testRequest =
        some (tr, w1) ∧
      WithCustomLog testHandlerImplicit (fun _ out => (none, out)) (recorder (fun _ => []))
        NewRecorder testRequest { out := "", trace := [] } = some (tr, w1, e1) ∧
      callbackCodes e1.trace = callbackCodes [] ∧
      e1.out = "" ∧
      underlyingCalls e1.trace = underlyingCalls [] ++ (tr.map Prod.fst).map Call.toEvent :=
  ⟨rfl, nil_callback_is_inert testHandlerImplicit (fun _ out => (none, out))
    (recorder (fun _ => [])) NewRecorder testRequest { out := "", trace := [] } rfl⟩

end accesslog
